import Mathlib

/-!
Shallow embedding of the spaCy multiprocessing notebook
(`spacy_multiprocess.ipynb`): the text cleaner, the stopword-removing
lemmatizer, and the chunk / dispatch / flatten orchestration used by
`preprocess_parallel`.

The external spaCy annotator is modelled as a fixed per-document function
`nlp : String → List Token`; a spaCy token is modelled by the three
attributes the notebook reads (`text`, `lemma_`, `is_alpha`).  Python's
`str.lower` is modelled on its ASCII fragment (`lowerChar`, `strLower`),
Python's `range` and slicing (as used by `chunker`) are modelled by
`pyRange` and `pySlice` including their behaviour on zero and negative
steps, and `re.findall` for the fixed pattern `[A-Za-z0-9-]{3,50}` is
modelled by `findallAux`.
-/

namespace SpacyNLP

/-- A spaCy token, restricted to the attributes the notebook uses:
`tok.text`, `tok.lemma_` and `tok.is_alpha`. -/
structure Token where
  text : String
  lemma_ : String
  is_alpha : Bool
deriving DecidableEq

/-- ASCII uppercase test (`A`–`Z`), stated on code points. -/
def isUpperChar (c : Char) : Bool := 65 ≤ c.toNat && c.toNat ≤ 90

/-- Model of Python `str.lower` on a single character (ASCII fragment):
an ASCII capital letter is shifted down by 32, all else is unchanged. -/
def lowerChar (c : Char) : Char :=
  if isUpperChar c then Char.ofNat (c.toNat + 32) else c

/-- Model of Python `str.lower` (ASCII fragment). -/
def strLower (s : String) : String := String.mk (s.data.map lowerChar)

/-- `lemmatize_pipe` from the notebook:
`[str(tok.lemma_).lower() for tok in doc if tok.is_alpha and tok.text.lower() not in stopwords]`. -/
def lemmatize_pipe (stopwords : List String) (doc : List Token) : List String :=
  (doc.filter (fun tok => tok.is_alpha && !(stopwords.contains (strLower tok.text)))).map
    (fun tok => strLower tok.lemma_)

/-- `lemmatize` from the notebook (option 1): runs the annotator on the raw
text, then the same comprehension as `lemmatize_pipe`. -/
def lemmatize (nlp : String → List Token) (stopwords : List String) (text : String) :
    List String :=
  ((nlp text).filter (fun tok => tok.is_alpha && !(stopwords.contains (strLower tok.text)))).map
    (fun tok => strLower tok.lemma_)

/-- `preprocess_pipe` from the notebook (option 2): `nlp.pipe` streams the
texts through the annotator in order (the internal `batch_size` and the
`tqdm` progress total do not affect the values produced). -/
def preprocess_pipe (nlp : String → List Token) (stopwords : List String)
    (texts : List String) : List (List String) :=
  texts.map (fun t => lemmatize_pipe stopwords (nlp t))

/-- `process_chunk` from the notebook (option 3): identical per-document
processing over one chunk of texts. -/
def process_chunk (nlp : String → List Token) (stopwords : List String)
    (texts : List String) : List (List String) :=
  texts.map (fun t => lemmatize_pipe stopwords (nlp t))

/-- Length of Python `range start stop step` for nonzero `step`. -/
def pyRangeLen (start stop step : Int) : Nat :=
  if 0 < step then ((stop - start + step - 1) / step).toNat
  else if step < 0 then ((start - stop + (-step) - 1) / (-step)).toNat
  else 0

/-- Python `range(start, stop, step)`: `none` models the `ValueError`
raised when `step = 0`; otherwise the arithmetic progression. -/
def pyRange (start stop step : Int) : Option (List Int) :=
  if step = 0 then none
  else some ((List.range (pyRangeLen start stop step)).map
    (fun i : Nat => start + step * (i : Int)))

/-- Clamp one endpoint of a Python slice of a length-`n` sequence. -/
def pySliceClamp (n : Nat) (i : Int) : Nat :=
  if i < 0 then ((n : Int) + i).toNat else min i.toNat n

/-- Python slice `l[i:j]` (unit step). -/
def pySlice {α : Type} (l : List α) (i j : Int) : List α :=
  (l.take (pySliceClamp l.length j)).drop (pySliceClamp l.length i)

/-- `chunker` from the notebook:
`(iterable[pos: pos + chunksize] for pos in range(0, total_length, chunksize))`.
The generator's `range` call is evaluated at creation, so `chunksize = 0`
fails (`none`) immediately. -/
def chunker {α : Type} (iterable : List α) (total_length : Nat) (chunksize : Int) :
    Option (List (List α)) :=
  (pyRange 0 total_length chunksize).map
    (fun ps => ps.map (fun pos => pySlice iterable pos (pos + chunksize)))

/-- `flatten` from the notebook:
`[item for sublist in list_of_lists for item in sublist]`. -/
def flatten {α : Type} : List (List α) → List α
  | [] => []
  | sublist :: rest => sublist ++ flatten rest

/-- `preprocess_parallel` from the notebook.  The joblib executor submits
one `process_chunk` task per chunk and returns results in submission order
(spec §4.2), so the fan-out/fan-in is an order-preserving map over the
chunks.  The notebook passes the global `len(df_preproc)` as the chunker's
`total_length`; it is kept as the explicit parameter `df_preproc_len`. -/
def preprocess_parallel (nlp : String → List Token) (stopwords : List String)
    (df_preproc_len : Nat) (texts : List String) (chunksize : Int) :
    Option (List (List String)) :=
  (chunker texts df_preproc_len chunksize).map
    (fun chunks => flatten (chunks.map (process_chunk nlp stopwords)))

/-- Membership in the character class `[A-Za-z0-9-]` of the cleaner's
regex. -/
def isPatChar (c : Char) : Bool :=
  (65 ≤ c.toNat && c.toNat ≤ 90) || (97 ≤ c.toNat && c.toNat ≤ 122) ||
    (48 ≤ c.toNat && c.toNat ≤ 57) || c == '-'

/-- Recursion engine for `findallAux`, structural in a fuel argument: at
each position the greedy match takes the run of class characters capped at
50; a match needs at least 3 characters, otherwise scanning advances one
character.  Every step consumes at least one character, so fuel equal to
the list length (as supplied by `findallAux`) always completes the scan. -/
def findallFuel : Nat → List Char → List (List Char)
  | _, [] => []
  | 0, _ :: _ => []
  | fuel + 1, c :: cs =>
    if 3 ≤ (((c :: cs).takeWhile isPatChar).take 50).length then
      ((c :: cs).takeWhile isPatChar).take 50 ::
        findallFuel fuel ((c :: cs).drop (((c :: cs).takeWhile isPatChar).take 50).length)
    else
      findallFuel fuel cs

/-- Model of `re.findall(r"[A-Za-z0-9\-]{3,50}", ·)` on the character
list of the input string. -/
def findallAux (l : List Char) : List (List Char) := findallFuel l.length l

/-- All regex matches of the cleaner's pattern in a string, in order. -/
def findall (s : String) : List String := (findallAux s.data).map String.mk

/-- The value of the `clean` column for one `content` field:
`str.findall(pattern).str.join(' ')`. -/
def cleanText (content : String) : String := String.intercalate " " (findall content)

/-- One row of the input DataFrame (`date`, `headline`, `content`). -/
structure Row where
  date : String
  headline : String
  content : String
deriving DecidableEq, Inhabited

/-- One row after `cleaner` added the `clean` column. -/
structure CleanRow where
  date : String
  headline : String
  content : String
  clean : String
deriving DecidableEq, Inhabited

/-- The per-row effect of `df['clean'] = df['content'].str.findall(pattern).str.join(' ')`. -/
def addClean (r : Row) : CleanRow := ⟨r.date, r.headline, r.content, cleanText r.content⟩

/-- `cleaner` from the notebook: add the `clean` column; if `limit > 0`
return only the first `limit` rows (`df.iloc[:limit, :]`), else the whole
frame. -/
def cleaner (limit : Int) (df : List Row) : List CleanRow :=
  if limit > 0 then (df.map addClean).take limit.toNat else df.map addClean

/-! ### Helper lemmas about `flatten`, `pySlice`, `pyRange` and `chunker` -/

theorem flatten_map_map {α β : Type} (f : α → β) (l : List (List α)) :
    flatten (l.map (List.map f)) = (flatten l).map f := by
  induction l with
  | nil => rfl
  | cons x xs ih => simp [flatten, ih]

theorem take_min_length {α : Type} (l : List α) (a : Nat) :
    l.take (min a l.length) = l.take a := by
  rcases Nat.le_total a l.length with h | h
  · rw [Nat.min_eq_left h]
  · rw [Nat.min_eq_right h, List.take_length, List.take_of_length_le h]

/-- A Python slice with nonnegative endpoints is drop-then-take. -/
theorem pySlice_nonneg {α : Type} (l : List α) (i j : Int) (hi : 0 ≤ i) (hj : 0 ≤ j) :
    pySlice l i j = (l.drop i.toNat).take (j.toNat - i.toNat) := by
  unfold pySlice pySliceClamp
  rw [if_neg (by omega), if_neg (by omega), take_min_length]
  rcases Nat.le_total i.toNat l.length with h | h
  · rw [Nat.min_eq_left h, List.drop_take]
  · rw [Nat.min_eq_right h]
    have h1 : (l.take j.toNat).drop l.length = [] := by
      apply List.drop_eq_nil_of_le
      rw [List.length_take]
      omega
    have h2 : (l.drop i.toNat).take (j.toNat - i.toNat) = [] := by
      rw [List.drop_eq_nil_of_le h, List.take_nil]
    rw [h1, h2]

/-- For a positive step, `chunker` succeeds and produces the explicit list
of drop/take slices at positions `K * i`. -/
theorem chunker_pos {α : Type} (l : List α) (n : Nat) (K : Int) (hK : 0 < K) :
    chunker l n K =
      some ((List.range ((n + K.toNat - 1) / K.toNat)).map
        (fun i => (l.drop (K.toNat * i)).take K.toNat)) := by
  obtain ⟨k, rfl⟩ : ∃ k : Nat, K = (k : Int) := ⟨K.toNat, (Int.toNat_of_nonneg hK.le).symm⟩
  have hk : 0 < k := by exact_mod_cast hK
  unfold chunker pyRange pyRangeLen
  rw [if_neg (by omega), if_pos (by omega)]
  have hlen : (((n : Int) - 0 + k - 1) / k).toNat = (n + k - 1) / k := by
    have hcast : ((n : Int) - 0 + k - 1) = ((n + k - 1 : Nat) : Int) := by omega
    rw [hcast, ← Int.ofNat_ediv, Int.toNat_natCast]
  rw [hlen, Option.map_some', List.map_map]
  congr 1
  apply List.map_congr_left
  intro i _
  show pySlice l (0 + (k : Int) * i) (0 + (k : Int) * i + k) = (l.drop (k * i)).take k
  have hpos : (0 : Int) + (k : Int) * i = ((k * i : Nat) : Int) := by push_cast; ring
  have hpos2 : (0 : Int) + (k : Int) * i + k = ((k * i + k : Nat) : Int) := by push_cast; ring
  rw [hpos2, hpos, pySlice_nonneg l _ _ (by positivity) (by positivity),
    Int.toNat_natCast, Int.toNat_natCast]
  congr 1
  omega

/-- Flattening the consecutive `take k` slices of positions `0, k, …,
k·(m-1)` recovers the first `k · m` elements of the list. -/
theorem flatten_range_chunks {α : Type} (k : Nat) (m : Nat) (l : List α) :
    flatten ((List.range m).map (fun i => (l.drop (k * i)).take k)) = l.take (k * m) := by
  induction m generalizing l with
  | zero => simp [flatten]
  | succ m ih =>
    rw [List.range_succ_eq_map]
    simp only [List.map_cons, List.map_map]
    have hstep : ((List.range m).map ((fun i => (l.drop (k * i)).take k) ∘ Nat.succ)) =
        (List.range m).map (fun i => ((l.drop k).drop (k * i)).take k) := by
      apply List.map_congr_left
      intro i _
      show (l.drop (k * (i + 1))).take k = ((l.drop k).drop (k * i)).take k
      rw [List.drop_drop]
      congr 2
      ring
    rw [hstep]
    show (l.drop (k * 0)).take k ++ flatten _ = _
    rw [ih (l.drop k)]
    have hsplit : k * (m + 1) = k + k * m := by ring
    rw [hsplit, List.take_add]
    simp

/-- Ceiling-division bound: `k · ⌈n/k⌉ ≥ n`. -/
theorem le_mul_ceil (n k : Nat) (hk : 0 < k) : n ≤ k * ((n + k - 1) / k) := by
  have h := Nat.div_add_mod (n + k - 1) k
  have h2 := Nat.mod_lt (n + k - 1) hk
  omega

/-- `preprocess_parallel` with positive chunk size: the result is the
per-document map over the first `K · ⌈total/K⌉` input texts. -/
theorem preprocess_parallel_pos (nlp : String → List Token) (stopwords : List String)
    (n : Nat) (texts : List String) (K : Int) (hK : 0 < K) :
    preprocess_parallel nlp stopwords n texts K =
      some ((texts.take (K.toNat * ((n + K.toNat - 1) / K.toNat))).map
        (fun t => lemmatize_pipe stopwords (nlp t))) := by
  unfold preprocess_parallel
  rw [chunker_pos texts n K hK, Option.map_some']
  congr 1
  rw [List.map_map]
  have hpc : ((fun chunk => process_chunk nlp stopwords chunk) ∘
      (fun i => (texts.drop (K.toNat * i)).take K.toNat)) =
      fun i => ((texts.drop (K.toNat * i)).take K.toNat).map
        (fun t => lemmatize_pipe stopwords (nlp t)) := rfl
  rw [hpc]
  have hmm : ((List.range ((n + K.toNat - 1) / K.toNat)).map
      (fun i => ((texts.drop (K.toNat * i)).take K.toNat).map
        (fun t => lemmatize_pipe stopwords (nlp t)))) =
      ((List.range ((n + K.toNat - 1) / K.toNat)).map
        (fun i => (texts.drop (K.toNat * i)).take K.toNat)).map
        (List.map (fun t => lemmatize_pipe stopwords (nlp t))) := by
    rw [List.map_map]
    rfl
  rw [hmm, flatten_map_map, flatten_range_chunks]

/-- If `i + 1 < ⌈n/k⌉` then the `i`-th chunk's span `k·(i+1)` still fits
inside `n`. -/
theorem mul_succ_le_of_lt_ceil {n k i m : Nat} (hk : 0 < k) (hm : m = (n + k - 1) / k)
    (hi : i + 1 < m) : k * (i + 1) ≤ n := by
  have h := Nat.div_add_mod (n + k - 1) k
  have h2 := Nat.mod_lt (n + k - 1) hk
  rw [← hm] at h
  have e2 : k * (i + 1) ≤ k * (m - 1) := Nat.mul_le_mul_left k (by omega)
  have e1 : k * (m - 1) + k = k * m := by
    have hq : m - 1 + 1 = m := by omega
    calc k * (m - 1) + k = k * (m - 1 + 1) := by rw [Nat.mul_succ]
      _ = k * m := by rw [hq]
  omega

/-! ### C1: flatten of the per-chunk results preserves length and order -/

/-- C1: for every input document sequence and chunk size `K > 0` (with the
chunker's `total_length` equal to the input length, as in the notebook's
intended use), flattening the per-chunk results in chunk order yields
exactly one LemmaList per input document, at the same index. -/
theorem c1_flatten_preserves_order (nlp : String → List Token) (stopwords : List String)
    (texts : List String) (K : Int) (hK : 0 < K) :
    preprocess_parallel nlp stopwords texts.length texts K =
      some (texts.map (fun t => lemmatize_pipe stopwords (nlp t))) ∧
    (texts.map (fun t => lemmatize_pipe stopwords (nlp t))).length = texts.length ∧
    ∀ i, i < texts.length →
      (texts.map (fun t => lemmatize_pipe stopwords (nlp t))).getD i [] =
        lemmatize_pipe stopwords (nlp (texts.getD i "")) := by
  refine ⟨?_, by simp, ?_⟩
  · rw [preprocess_parallel_pos nlp stopwords texts.length texts K hK]
    congr 1
    rw [List.take_of_length_le (le_mul_ceil texts.length K.toNat (by omega))]
  · intro i hi
    rw [List.getD_eq_getElem _ _ (by simpa using hi), List.getD_eq_getElem _ _ hi,
      List.getElem_map]

theorem c1_witness :
    (0 : Int) < 2 ∧
    preprocess_parallel (fun s => [⟨s, s, true⟩]) ["the"] (["a", "b", "c"].length)
        ["a", "b", "c"] 2 =
      some (["a", "b", "c"].map
        (fun t => lemmatize_pipe ["the"] ((fun s => [⟨s, s, true⟩]) t))) :=
  ⟨by decide,
    (c1_flatten_preserves_order (fun s => [⟨s, s, true⟩]) ["the"] ["a", "b", "c"] 2
      (by decide)).1⟩

/-! ### C2: chunker shape -/

/-- C2 (amended: for the empty input `N = 0` the chunker yields zero
chunks, so "K ≥ N produces exactly one chunk" requires `N ≥ 1`): for
`K > 0` the chunker yields `⌈N/K⌉` chunks, each of length at most `K`,
all of length exactly `K` except possibly the last, whose concatenation
in order is the input; `K ≥ N ≥ 1` gives one chunk, `K = 1` gives `N`
chunks of size 1. -/
theorem c2_chunker_shape {α : Type} (l : List α) (K : Int) (hK : 0 < K) :
    ∃ cs, chunker l l.length K = some cs ∧
      cs.length = (l.length + K.toNat - 1) / K.toNat ∧
      (∀ c ∈ cs, c.length ≤ K.toNat) ∧
      (∀ i, i + 1 < cs.length → (cs.getD i []).length = K.toNat) ∧
      flatten cs = l ∧
      ((l.length : Int) ≤ K → 1 ≤ l.length → cs.length = 1) ∧
      (K = 1 → cs.length = l.length ∧ ∀ c ∈ cs, c.length = 1) := by
  obtain ⟨k, rfl⟩ : ∃ k : Nat, K = (k : Int) := ⟨K.toNat, (Int.toNat_of_nonneg hK.le).symm⟩
  have hk : 0 < k := by exact_mod_cast hK
  have hkk : (k : Int).toNat = k := Int.toNat_natCast k
  set n := l.length with hn
  set m := (n + k - 1) / k with hm
  refine ⟨_, by rw [chunker_pos l n _ hK, hkk], ?_, ?_, ?_, ?_, ?_, ?_⟩
  · simp [hkk]
  · intro c hc
    rw [hkk]
    obtain ⟨i, _, rfl⟩ := List.mem_map.mp hc
    simp [List.length_take]
  · intro i hi
    rw [hkk]
    simp only [List.length_map, List.length_range] at hi
    rw [List.getD_eq_getElem _ _ (by simp only [List.length_map, List.length_range]; omega),
      List.getElem_map, List.getElem_range]
    have hspan : k * (i + 1) ≤ n := mul_succ_le_of_lt_ceil hk hm hi
    rw [List.length_take, List.length_drop]
    have : k * (i + 1) = k * i + k := Nat.mul_succ k i
    omega
  · rw [flatten_range_chunks, ← hm]
    exact List.take_of_length_le (le_mul_ceil n k hk)
  · intro hKn hn1
    have hnk : n ≤ k := by exact_mod_cast hKn
    simp only [hkk, List.length_map, List.length_range]
    have h1 : 1 ≤ m := by
      rw [hm, Nat.le_div_iff_mul_le hk]
      omega
    have h2 : m < 2 := by
      rw [hm, Nat.div_lt_iff_lt_mul hk]
      omega
    omega
  · intro hK1
    have hk1 : k = 1 := by omega
    subst hk1
    constructor
    · simp [hkk]
    · intro c hc
      obtain ⟨i, hi, rfl⟩ := List.mem_map.mp hc
      rw [List.mem_range] at hi
      rw [List.length_take, List.length_drop]
      have hin : i < n := by
        have h1 : (n + 1 - 1) / 1 = n := by simp
        omega
      omega

theorem c2_witness :
    (0 : Int) < 2 ∧
    ∃ cs, chunker ([10, 20, 30, 40, 50] : List Nat)
        ([10, 20, 30, 40, 50] : List Nat).length 2 = some cs ∧
      cs.length = (([10, 20, 30, 40, 50] : List Nat).length + (2 : Int).toNat - 1) /
        (2 : Int).toNat ∧
      (∀ c ∈ cs, c.length ≤ (2 : Int).toNat) ∧
      (∀ i, i + 1 < cs.length → (cs.getD i []).length = (2 : Int).toNat) ∧
      flatten cs = [10, 20, 30, 40, 50] ∧
      ((([10, 20, 30, 40, 50] : List Nat).length : Int) ≤ 2 →
        1 ≤ ([10, 20, 30, 40, 50] : List Nat).length → cs.length = 1) ∧
      ((2 : Int) = 1 → cs.length = ([10, 20, 30, 40, 50] : List Nat).length ∧
        ∀ c ∈ cs, c.length = 1) :=
  ⟨by decide, c2_chunker_shape [10, 20, 30, 40, 50] 2 (by decide)⟩

/-- C2 counterexample to the claim as stated: for the empty input sequence
(`N = 0`) and `K = 1 ≥ N`, the chunker yields zero chunks, not "exactly
one chunk". -/
theorem c2_counterexample :
    chunker ([] : List Nat) ([] : List Nat).length 1 = some [] ∧
    ([] : List (List Nat)).length ≠ 1 := by
  constructor
  · decide
  · decide

/-! ### C3: the parallel chunked pipeline refines the sequential one -/

/-- C3: with the annotator fixed as a per-document function, for every
chunk size `K > 0` the chunk / per-chunk-process / flatten pipeline
(run with matching `total_length`, i.e. the joblib fan-out/fan-in being
order-preserving) produces exactly the sequential `preprocess_pipe`
result, which is itself the per-document `lemmatize` applied to each
text; chunk boundaries do not alter any document's result. -/
theorem c3_parallel_refines_sequential (nlp : String → List Token)
    (stopwords : List String) (texts : List String) (K : Int) (hK : 0 < K) :
    preprocess_parallel nlp stopwords texts.length texts K =
      some (preprocess_pipe nlp stopwords texts) ∧
    preprocess_pipe nlp stopwords texts = texts.map (lemmatize nlp stopwords) := by
  constructor
  · rw [preprocess_parallel_pos nlp stopwords texts.length texts K hK]
    unfold preprocess_pipe
    congr 1
    rw [List.take_of_length_le (le_mul_ceil texts.length K.toNat (by omega))]
  · rfl

theorem c3_witness :
    (0 : Int) < 1 ∧
    (preprocess_parallel (fun s => [⟨s, s, false⟩, ⟨s, s, true⟩]) ["a"]
        (["a", "bb"].length) ["a", "bb"] 1 =
      some (preprocess_pipe (fun s => [⟨s, s, false⟩, ⟨s, s, true⟩]) ["a"] ["a", "bb"]) ∧
    preprocess_pipe (fun s => [⟨s, s, false⟩, ⟨s, s, true⟩]) ["a"] ["a", "bb"] =
      ["a", "bb"].map (lemmatize (fun s => [⟨s, s, false⟩, ⟨s, s, true⟩]) ["a"])) :=
  ⟨by decide,
    c3_parallel_refines_sequential (fun s => [⟨s, s, false⟩, ⟨s, s, true⟩]) ["a"]
      ["a", "bb"] 1 (by decide)⟩

/-! ### C6: chunker error conditions -/

/-- C6 (amended: the chunker fails exactly for `K = 0`; for `K < 0` it
does not fail but yields an empty sequence of chunks, since Python's
`range(0, total_length, K)` is then empty; no other validation is
performed). -/
theorem c6_chunker_error_conditions {α : Type} (l : List α) (n : Nat) (K : Int) :
    (0 < K → (chunker l n K).isSome = true) ∧
    (K = 0 → chunker l n K = none) ∧
    (K < 0 → chunker l n K = some []) := by
  refine ⟨?_, ?_, ?_⟩
  · intro hK
    rw [chunker_pos l n K hK]
    rfl
  · intro hK
    subst hK
    unfold chunker pyRange
    rw [if_pos rfl]
    rfl
  · intro hK
    unfold chunker pyRange pyRangeLen
    rw [if_neg (by omega), if_neg (by omega), if_pos hK]
    have hlen : (((0 : Int) - n + -K - 1) / -K).toNat = 0 := by
      rw [Int.toNat_eq_zero]
      rcases Int.lt_or_le ((0 : Int) - n + -K - 1) 0 with h | h
      · exact (Int.ediv_neg' h (by omega)).le
      · rw [Int.ediv_eq_zero_of_lt h (by omega)]
    rw [hlen]
    rfl

theorem c6_witness :
    ((0 : Int) < 2 → (chunker ([7, 8, 9] : List Nat) 3 2).isSome = true) ∧
    ((0 : Int) = 0 → chunker ([7, 8, 9] : List Nat) 3 0 = none) ∧
    ((-4 : Int) < 0 → chunker ([7, 8, 9] : List Nat) 3 (-4) = some []) :=
  ⟨fun _ => (c6_chunker_error_conditions [7, 8, 9] 3 2).1 (by decide),
    fun _ => (c6_chunker_error_conditions [7, 8, 9] 3 0).2.1 rfl,
    fun _ => (c6_chunker_error_conditions [7, 8, 9] 3 (-4)).2.2 (by decide)⟩

/-- C6 counterexample to the claim as stated: a negative chunk size
(`K = -1 ≤ 0`) does not make the chunker fail — it returns an empty chunk
sequence instead of failing. -/
theorem c6_counterexample :
    chunker ([1] : List Nat) 1 (-1) = some [] ∧ chunker ([1] : List Nat) 1 (-1) ≠ none := by
  constructor
  · decide
  · decide

/-! ### C8: the chunker covers `[0, K·⌈total_length/K⌉)`, not `[0, total_length)` -/

/-- C8 (amended: the positions iterate over `range(0, total_length, K)`
but each slice extends `K` past its position, so the covered index range
is `[0, K·⌈total_length/K⌉)`; texts beyond that prefix are silently
dropped, a larger `total_length` only adds empty chunks, and the output
has one LemmaList per text of that covered prefix). -/
theorem c8_total_length_mismatch (nlp : String → List Token) (stopwords : List String)
    (total : Nat) (texts : List String) (K : Int) (hK : 0 < K) :
    preprocess_parallel nlp stopwords total texts K =
      some ((texts.take (K.toNat * ((total + K.toNat - 1) / K.toNat))).map
        (fun t => lemmatize_pipe stopwords (nlp t))) ∧
    (∀ out, preprocess_parallel nlp stopwords total texts K = some out →
      out.length = min (K.toNat * ((total + K.toNat - 1) / K.toNat)) texts.length) ∧
    (texts.length ≤ K.toNat * ((total + K.toNat - 1) / K.toNat) →
      preprocess_parallel nlp stopwords total texts K =
        some (texts.map (fun t => lemmatize_pipe stopwords (nlp t)))) := by
  have hmain := preprocess_parallel_pos nlp stopwords total texts K hK
  refine ⟨hmain, ?_, ?_⟩
  · intro out hout
    rw [hmain] at hout
    obtain rfl : _ = out := Option.some.inj hout
    simp [List.length_take]
  · intro hle
    rw [hmain, List.take_of_length_le hle]

theorem c8_witness :
    (0 : Int) < 3 ∧
    preprocess_parallel (fun s => [⟨s, s, true⟩]) [] 2 ["p", "q", "r", "s", "t"] 3 =
      some ((["p", "q", "r", "s", "t"].take
          ((3 : Int).toNat * ((2 + (3 : Int).toNat - 1) / (3 : Int).toNat))).map
        (fun t => lemmatize_pipe [] ((fun s => [⟨s, s, true⟩]) t))) :=
  ⟨by decide,
    (c8_total_length_mismatch (fun s => [⟨s, s, true⟩]) [] 2 ["p", "q", "r", "s", "t"] 3
      (by decide)).1⟩

/-- C8 counterexample to the claim as stated: with two input texts,
`total_length = 1` and `K = 2`, the single position `0` slices two
elements, so no trailing text is dropped — the output still has one
LemmaList per input text even though `total_length < len(texts)`. -/
theorem c8_counterexample :
    preprocess_parallel (fun _ => []) [] 1 ["x", "y"] 2 = some [[], []] := by decide

/-! ### C4: the stopword / alphabetic filter -/

/-- C4: with all stopword entries lowercase, a token survives the filter
of `lemmatize_pipe` (and so contributes its lowercased lemma to the
LemmaList, in order) iff it is alphabetic and its lowercased text is not
in the stopword set; any token case-insensitively equal to a stopword
entry is excluded, and any non-alphabetic token is excluded. -/
theorem c4_stopword_filter (stopwords : List String)
    (hsw : ∀ s ∈ stopwords, strLower s = s) (doc : List Token) :
    lemmatize_pipe stopwords doc =
      (doc.filter (fun tok => tok.is_alpha && !(stopwords.contains (strLower tok.text)))).map
        (fun tok => strLower tok.lemma_) ∧
    (∀ tok : Token,
      (tok.is_alpha && !(stopwords.contains (strLower tok.text))) = true ↔
        (tok.is_alpha = true ∧ strLower tok.text ∉ stopwords)) ∧
    (∀ tok : Token, ∀ s ∈ stopwords, strLower tok.text = strLower s →
      (tok.is_alpha && !(stopwords.contains (strLower tok.text))) = false) ∧
    (∀ tok : Token, tok.is_alpha = false →
      (tok.is_alpha && !(stopwords.contains (strLower tok.text))) = false) := by
  refine ⟨rfl, ?_, ?_, ?_⟩
  · intro tok
    simp
  · intro tok s hs heq
    have hmem : strLower tok.text ∈ stopwords := by
      rw [heq, hsw s hs]
      exact hs
    have hc : stopwords.contains (strLower tok.text) = true := by simpa using hmem
    simp only [hc, Bool.not_true, Bool.and_false]
  · intro tok h
    simp [h]

theorem c4_witness :
    (∀ s ∈ ["the"], strLower s = s) ∧
    ((Token.mk "The" "the" true).is_alpha &&
      !(List.contains ["the"] (strLower (Token.mk "The" "the" true).text))) = false :=
  have hsw : ∀ s ∈ ["the"], strLower s = s := by
    intro s hs
    rw [List.mem_singleton] at hs
    subst hs
    rfl
  ⟨hsw,
    (c4_stopword_filter ["the"] hsw []).2.2.1 (Token.mk "The" "the" true) "the"
      (by decide) (by decide)⟩

/-! ### C10: every produced lemma is lowercase -/

/-- `Char.ofNat` below the surrogate range reproduces its argument. -/
theorem toNat_charOfNat {n : Nat} (h : n < 55296) : (Char.ofNat n).toNat = n := by
  rw [Char.ofNat, dif_pos (Or.inl (by omega))]
  rfl

/-- Lowercasing a character never yields an ASCII capital. -/
theorem isUpperChar_lowerChar (c : Char) : isUpperChar (lowerChar c) = false := by
  rw [lowerChar]
  by_cases h : isUpperChar c = true
  · rw [if_pos h]
    rw [isUpperChar, Bool.and_eq_true, decide_eq_true_eq, decide_eq_true_eq] at h
    rw [isUpperChar, toNat_charOfNat (by omega)]
    simp only [Bool.and_eq_false_iff, decide_eq_false_iff_not]
    omega
  · rw [if_neg h]
    exact Bool.not_eq_true _ ▸ (by simpa using h)

/-- Every character of a lowercased string is non-uppercase. -/
theorem strLower_no_upper (s : String) : ∀ c ∈ (strLower s).data, isUpperChar c = false := by
  intro c hc
  have hc' : c ∈ s.data.map lowerChar := hc
  obtain ⟨c0, _, rfl⟩ := List.mem_map.mp hc'
  exact isUpperChar_lowerChar c0

/-- Members of `flatten` come from some sublist. -/
theorem mem_flatten {α : Type} (a : α) (L : List (List α)) :
    a ∈ flatten L ↔ ∃ l ∈ L, a ∈ l := by
  induction L with
  | nil => simp [flatten]
  | cons x xs ih => simp [flatten, ih]

/-- Every lemma string emitted by `lemmatize_pipe` is a lowercased lemma. -/
theorem mem_lemmatize_pipe_no_upper (stopwords : List String) (doc : List Token)
    (lem : String) (h : lem ∈ lemmatize_pipe stopwords doc) :
    ∀ c ∈ lem.data, isUpperChar c = false := by
  unfold lemmatize_pipe at h
  obtain ⟨tok, _, rfl⟩ := List.mem_map.mp h
  exact strLower_no_upper tok.lemma_

/-- C10: in all three workflows (`lemmatize`, `preprocess_pipe`,
`preprocess_parallel`) every string of every produced LemmaList is the
explicitly lowercased lemma, hence contains no uppercase character. -/
theorem c10_output_lowercase (nlp : String → List Token) (stopwords : List String) :
    (∀ text : String, ∀ lem ∈ lemmatize nlp stopwords text, ∀ c ∈ lem.data,
      isUpperChar c = false) ∧
    (∀ texts : List String, ∀ ll ∈ preprocess_pipe nlp stopwords texts, ∀ lem ∈ ll,
      ∀ c ∈ lem.data, isUpperChar c = false) ∧
    (∀ (total : Nat) (texts : List String) (K : Int) (out : List (List String)),
      preprocess_parallel nlp stopwords total texts K = some out →
      ∀ ll ∈ out, ∀ lem ∈ ll, ∀ c ∈ lem.data, isUpperChar c = false) := by
  refine ⟨?_, ?_, ?_⟩
  · intro text lem hlem
    exact mem_lemmatize_pipe_no_upper stopwords (nlp text) lem hlem
  · intro texts ll hll lem hlem
    obtain ⟨t, _, rfl⟩ := List.mem_map.mp hll
    exact mem_lemmatize_pipe_no_upper stopwords (nlp t) lem hlem
  · intro total texts K out hout ll hll lem hlem
    unfold preprocess_parallel at hout
    obtain ⟨cs, _, rfl⟩ := Option.map_eq_some'.mp hout
    rw [mem_flatten] at hll
    obtain ⟨chunkres, hcr, hllcr⟩ := hll
    obtain ⟨chunk, _, rfl⟩ := List.mem_map.mp hcr
    unfold process_chunk at hllcr
    obtain ⟨t, _, rfl⟩ := List.mem_map.mp hllcr
    exact mem_lemmatize_pipe_no_upper stopwords (nlp t) lem hlem

theorem c10_witness : isUpperChar 'r' = false :=
  (c10_output_lowercase (fun s => [⟨s, "Run", true⟩]) []).1 "x" (strLower "Run")
    (by decide) 'r' (by decide)

/-! ### Cleaner helper lemmas -/

/-- Rows of the cleaner's output are `addClean` of input rows. -/
theorem mem_cleaner {limit : Int} {df : List Row} {r : CleanRow} (h : r ∈ cleaner limit df) :
    ∃ r₀, r₀ ∈ df ∧ r = addClean r₀ := by
  have hsub : r ∈ df.map addClean := by
    unfold cleaner at h
    by_cases hl : limit > 0
    · rw [if_pos hl] at h
      exact List.take_subset _ _ h
    · rw [if_neg hl] at h
      exact h
  obtain ⟨r₀, hr₀, rfl⟩ := List.mem_map.mp hsub
  exact ⟨r₀, hr₀, rfl⟩

/-- Every match the scanner emits has length between 3 and 50 and consists
only of pattern-class characters. -/
theorem findallFuel_props :
    ∀ (fuel : Nat) (cs : List Char), ∀ m ∈ findallFuel fuel cs,
      3 ≤ m.length ∧ m.length ≤ 50 ∧ ∀ c ∈ m, isPatChar c = true := by
  intro fuel
  induction fuel with
  | zero =>
    intro cs m hm
    cases cs <;> simp [findallFuel] at hm
  | succ fuel ih =>
    intro cs m hm
    cases cs with
    | nil => simp [findallFuel] at hm
    | cons c rest =>
      simp only [findallFuel] at hm
      by_cases h3 : 3 ≤ (((c :: rest).takeWhile isPatChar).take 50).length
      · rw [if_pos h3] at hm
        rcases List.mem_cons.mp hm with rfl | hm'
        · refine ⟨h3, ?_, ?_⟩
          · rw [List.length_take]
            omega
          · intro x hx
            exact List.mem_takeWhile_imp (List.mem_of_mem_take hx)
        · exact ih _ _ hm'
      · rw [if_neg h3] at hm
        exact ih _ _ hm

/-- The matches, concatenated in emission order, form a sublist of the
scanned text: they occur in the text in order of occurrence. -/
theorem findallFuel_sublist :
    ∀ (fuel : Nat) (cs : List Char), (flatten (findallFuel fuel cs)).Sublist cs := by
  intro fuel
  induction fuel with
  | zero =>
    intro cs
    cases cs <;> simp [findallFuel, flatten]
  | succ fuel ih =>
    intro cs
    cases cs with
    | nil => simp [findallFuel, flatten]
    | cons c rest =>
      simp only [findallFuel]
      set m := ((c :: rest).takeWhile isPatChar).take 50 with hm
      set tailpart := ((c :: rest).takeWhile isPatChar).drop 50 ++
        (c :: rest).dropWhile isPatChar with htail
      by_cases h3 : 3 ≤ m.length
      · rw [if_pos h3]
        have htp : m ++ tailpart = c :: rest := by
          rw [hm, htail, ← List.append_assoc, List.take_append_drop,
            List.takeWhile_append_dropWhile]
        have hdrop : (c :: rest).drop m.length = tailpart := by
          rw [← htp, List.drop_left]
        rw [flatten, hdrop, ← htp]
        exact (ih tailpart).append_left _
      · rw [if_neg h3]
        exact (ih rest).cons c

/-! ### C5: the cleaner's per-document regex extraction -/

/-- C5: every row of the cleaner's output carries `clean` equal to the
space-join of the regex matches of its `content`, each match consists
only of `[A-Za-z0-9-]` characters with length between 3 and 50, and the
matches occur in the content in order of occurrence (their concatenation
is a sublist of the content). -/
theorem c5_cleaner_regex (limit : Int) (df : List Row) :
    ∀ r ∈ cleaner limit df,
      r.clean = String.intercalate " " (findall r.content) ∧
      (∀ t ∈ findall r.content, 3 ≤ t.length ∧ t.length ≤ 50 ∧
        ∀ c ∈ t.data, isPatChar c = true) ∧
      (flatten (findallAux r.content.data)).Sublist r.content.data := by
  intro r hr
  obtain ⟨r₀, _, rfl⟩ := mem_cleaner hr
  refine ⟨rfl, ?_, findallFuel_sublist _ _⟩
  intro t ht
  obtain ⟨m, hm, rfl⟩ := List.mem_map.mp ht
  obtain ⟨h1, h2, h3⟩ := findallFuel_props _ _ _ hm
  exact ⟨h1, h2, h3⟩

theorem c5_witness :
    (addClean ⟨"d", "h", "ab-c x"⟩).clean =
      String.intercalate " " (findall (addClean ⟨"d", "h", "ab-c x"⟩).content) :=
  (c5_cleaner_regex 0 [⟨"d", "h", "ab-c x"⟩] (addClean ⟨"d", "h", "ab-c x"⟩) (by decide)).1

/-! ### C7: the row limit -/

/-- C7: `limit = 0` keeps all rows; `limit = L > 0` keeps exactly the
first `min L N` rows of the (clean-augmented) table, in order. -/
theorem c7_row_limit (df : List Row) (L : Int) :
    (cleaner 0 df).length = df.length ∧
    (0 < L → cleaner L df = (cleaner 0 df).take L.toNat ∧
      (cleaner L df).length = min L.toNat df.length) := by
  constructor
  · unfold cleaner
    rw [if_neg (by omega)]
    simp
  · intro hL
    constructor
    · unfold cleaner
      rw [if_pos (by omega), if_neg (by omega)]
    · unfold cleaner
      rw [if_pos (by omega)]
      simp [List.length_take]

theorem c7_witness :
    (cleaner 0 [⟨"d1", "h1", "c1"⟩, ⟨"d2", "h2", "c2"⟩, ⟨"d3", "h3", "c3"⟩]).length =
      ([⟨"d1", "h1", "c1"⟩, ⟨"d2", "h2", "c2"⟩, ⟨"d3", "h3", "c3"⟩] : List Row).length ∧
    (0 < (2 : Int) →
      cleaner 2 [⟨"d1", "h1", "c1"⟩, ⟨"d2", "h2", "c2"⟩, ⟨"d3", "h3", "c3"⟩] =
        (cleaner 0 [⟨"d1", "h1", "c1"⟩, ⟨"d2", "h2", "c2"⟩, ⟨"d3", "h3", "c3"⟩]).take
          (2 : Int).toNat ∧
      (cleaner 2 [⟨"d1", "h1", "c1"⟩, ⟨"d2", "h2", "c2"⟩, ⟨"d3", "h3", "c3"⟩]).length =
        min (2 : Int).toNat
          ([⟨"d1", "h1", "c1"⟩, ⟨"d2", "h2", "c2"⟩, ⟨"d3", "h3", "c3"⟩] : List Row).length) :=
  c7_row_limit [⟨"d1", "h1", "c1"⟩, ⟨"d2", "h2", "c2"⟩, ⟨"d3", "h3", "c3"⟩] 2

/-! ### C9: the cleaner only adds the `clean` column -/

/-- C9: each retained output row agrees with the corresponding input row
on `date`, `headline` and `content` — the cleaner only adds `clean`. -/
theorem c9_cleaner_frame (limit : Int) (df : List Row) (i : Nat)
    (hi : i < (cleaner limit df).length) :
    i < df.length ∧
    ((cleaner limit df).getD i default).date = (df.getD i default).date ∧
    ((cleaner limit df).getD i default).headline = (df.getD i default).headline ∧
    ((cleaner limit df).getD i default).content = (df.getD i default).content := by
  have hkey : i < df.length ∧
      (cleaner limit df).getD i default = addClean (df.getD i default) := by
    unfold cleaner at hi ⊢
    by_cases hl : limit > 0
    · rw [if_pos hl] at hi ⊢
      have hi' : i < df.length := by
        rw [List.length_take, List.length_map] at hi
        omega
      refine ⟨hi', ?_⟩
      rw [List.getD_eq_getElem _ _ hi, List.getElem_take, List.getElem_map,
        List.getD_eq_getElem _ _ hi']
    · rw [if_neg hl] at hi ⊢
      have hi' : i < df.length := by
        rw [List.length_map] at hi
        omega
      refine ⟨hi', ?_⟩
      rw [List.getD_eq_getElem _ _ hi, List.getElem_map, List.getD_eq_getElem _ _ hi']
  exact ⟨hkey.1, by rw [hkey.2]; rfl, by rw [hkey.2]; rfl, by rw [hkey.2]; rfl⟩

theorem c9_witness :
    0 < (cleaner 0 [⟨"2016-06-30", "headline text", "Some content"⟩]).length ∧
    (0 < ([⟨"2016-06-30", "headline text", "Some content"⟩] : List Row).length ∧
      ((cleaner 0 [⟨"2016-06-30", "headline text", "Some content"⟩]).getD 0 default).date =
        (([⟨"2016-06-30", "headline text", "Some content"⟩] : List Row).getD 0 default).date ∧
      ((cleaner 0 [⟨"2016-06-30", "headline text", "Some content"⟩]).getD 0
          default).headline =
        (([⟨"2016-06-30", "headline text", "Some content"⟩] : List Row).getD 0
          default).headline ∧
      ((cleaner 0 [⟨"2016-06-30", "headline text", "Some content"⟩]).getD 0
          default).content =
        (([⟨"2016-06-30", "headline text", "Some content"⟩] : List Row).getD 0
          default).content) :=
  ⟨by decide,
    c9_cleaner_frame 0 [⟨"2016-06-30", "headline text", "Some content"⟩] 0 (by decide)⟩

end SpacyNLP
